import Mathlib

/-!
Shallow embedding of the Shelf Scope DSL from `src/kotn-core-utils.js`
(`normalizeScopePrefix`, `mergeScopeRules`, `compileShelfScope`,
`matchShelfNameScope`, `filterShelfNamesByScope`, `parseShelfName`),
together with proofs checking the specification's claims about it.

Modelling conventions:
* JS strings are Lean `String`s (lists of `Char`); the whitespace class of
  the JS regexes (`\s` in `dom.norm`) and of `parseInt` is modelled by the
  ASCII whitespace characters, and `toUpperCase` by the ASCII upper-casing
  map, which agree with JS on all ASCII inputs.
* JS numbers are modelled as `Int` (all numbers reaching arithmetic in this
  code are integers produced by `parseInt`); a `NaN` result of `parseInt`
  is modelled as `Option.none`.
* The scope-DSL regexes in the source are written with doubled backslashes
  (`/^([A-Za-z]+)\\:(.+)$/`, `/^([A-Za-z]+)(\\d+)(?:\\-(\\d+))?$/`,
  `/^(\\d+)(?:\\-(\\d+))?$/`, `/\\s+/g`).  In a JS regex literal `\\`
  matches one literal backslash character, so e.g. `(\\d+)` matches a
  backslash followed by one or more letter-`d` characters, not a digit run.
  The embedding reproduces this literal behaviour exactly; each matcher
  below is the deterministic unfolding of its (anchored) regex.
-/

/-- ASCII model of the JS whitespace class `\s` (space, tab, LF, VT, FF, CR),
used by `dom.norm`'s `trim()`/`replace(/\s+/g,' ')` and by `parseInt`. -/
def isJsSpace (c : Char) : Bool :=
  decide (c.toNat = 32) || decide (c.toNat = 9) || decide (c.toNat = 10) ||
  decide (c.toNat = 11) || decide (c.toNat = 12) || decide (c.toNat = 13)

/-- `[A-Za-z]` character class. -/
def isAsciiLetter (c : Char) : Bool :=
  (decide (65 ≤ c.toNat) && decide (c.toNat ≤ 90)) ||
  (decide (97 ≤ c.toNat) && decide (c.toNat ≤ 122))

/-- `[0-9]` (regex `\d`) character class. -/
def isAsciiDigit (c : Char) : Bool :=
  decide (48 ≤ c.toNat) && decide (c.toNat ≤ 57)

/-- ASCII model of JS `String.prototype.toUpperCase` on one character. -/
def jsToUpperChar (c : Char) : Char :=
  if 97 ≤ c.toNat ∧ c.toNat ≤ 122 then Char.ofNat (c.toNat - 32) else c

/-- `trim()`: drop JS whitespace from both ends of a character list. -/
def jsTrimL (l : List Char) : List Char :=
  ((l.dropWhile isJsSpace).reverse.dropWhile isJsSpace).reverse

/-- `replace(/\s+/g, ' ')`: collapse each whitespace run to a single space.
The flag records whether the previous character was part of a run. -/
def collapseWs : Bool → List Char → List Char
  | _, [] => []
  | prevSpace, c :: cs =>
    if isJsSpace c then
      if prevSpace then collapseWs true cs
      else ' ' :: collapseWs true cs
    else c :: collapseWs false cs

/-- Character-list body of `dom.norm`: `trim()` then collapse whitespace. -/
def normChars (l : List Char) : List Char :=
  collapseWs false (jsTrimL l)

/-- `dom.norm(text)` from the source: `(text || '').trim().replace(/\s+/g, ' ')`. -/
def jsNorm (s : String) : String :=
  String.mk (normChars s.data)

/-- ASCII model of `String.prototype.toUpperCase`. -/
def jsToUpper (s : String) : String :=
  String.mk (s.data.map jsToUpperChar)

/-- `normalizeScopePrefix(prefix)` from the source:
`dom.norm(prefix || '').toUpperCase()`. -/
def normalizeScopePfx (p : String) : String :=
  jsToUpper (jsNorm p)

/-- A scope rule `{ prefix, lo, hi }` (`prefix` is called `pfx` here). -/
structure ScopeRule where
  pfx : String
  lo : Int
  hi : Int
deriving DecidableEq

/-- The compiled scope `{ raw, rules, errors, implicitPrefixes }`. -/
structure CompiledScope where
  raw : String
  rules : List ScopeRule
  errors : List String
  implicitPrefixes : List String
deriving DecidableEq

/-- The `options` argument of `compileShelfScope`. -/
structure ScopeOptions where
  implicitPrefixes : List String
deriving DecidableEq

/-- The body of `mergeScopeRules`' first loop: normalize one raw rule,
dropping it when the normalized prefix is empty, and orienting `lo ≤ hi`. -/
def normScopeEntry (r : ScopeRule) : Option ScopeRule :=
  if normalizeScopePfx r.pfx = "" then Option.none
  else some ⟨normalizeScopePfx r.pfx, min r.lo r.hi, max r.lo r.hi⟩

/-- The comparator `(a, b) => a.lo - b.lo || a.hi - b.hi` as an order. -/
def leRule (a b : ScopeRule) : Prop :=
  a.lo < b.lo ∨ (a.lo = b.lo ∧ a.hi ≤ b.hi)

instance : DecidableRel leRule := fun a b => by
  unfold leRule; infer_instance

instance : IsTotal ScopeRule leRule where
  total a b := by
    rcases lt_trichotomy a.lo b.lo with h | h | h
    · exact Or.inl (Or.inl h)
    · rcases le_total a.hi b.hi with h' | h'
      · exact Or.inl (Or.inr ⟨h, h'⟩)
      · exact Or.inr (Or.inr ⟨h.symm, h'⟩)
    · exact Or.inr (Or.inl h)

instance : IsTrans ScopeRule leRule where
  trans a b c hab hbc := by
    rcases hab with h1 | ⟨h1, h1'⟩ <;> rcases hbc with h2 | ⟨h2, h2'⟩
    · exact Or.inl (h1.trans h2)
    · exact Or.inl (h2 ▸ h1)
    · exact Or.inl (h1 ▸ h2)
    · exact Or.inr ⟨h1.trans h2, h1'.trans h2'⟩

/-- The sweep of `mergeScopeRules`: extend the running interval `cur` while
the next rule starts at or before `cur.hi + 1`, otherwise close `cur`. -/
def sweepRanges : ScopeRule → List ScopeRule → List ScopeRule
  | cur, [] => [cur]
  | cur, r :: rs =>
    if r.lo ≤ cur.hi + 1 then sweepRanges ⟨cur.pfx, cur.lo, max cur.hi r.hi⟩ rs
    else cur :: sweepRanges r rs

/-- Sort one prefix group by `(lo, hi)` and sweep it. -/
def mergeGroup (g : List ScopeRule) : List ScopeRule :=
  match List.insertionSort leRule g with
  | [] => []
  | c :: t => sweepRanges c t

/-- Keys of the `byPrefix` map in insertion (first-seen) order. -/
def firstKeys : List ScopeRule → List String
  | [] => []
  | r :: rs => r.pfx :: (firstKeys rs).filter (fun q => !(q == r.pfx))

/-- `mergeScopeRules(rules)` from the source: group normalized rules by
prefix in first-seen order, sort each group by `(lo, hi)`, sweep, concat. -/
def mergeScopeRules (rules : List ScopeRule) : List ScopeRule :=
  let pre := rules.filterMap normScopeEntry
  ((firstKeys pre).map fun p => mergeGroup (pre.filter fun r => r.pfx == p)).flatten

/-- `String.prototype.split(',')`: split at every comma, keeping empty pieces. -/
def splitComma : List Char → List (List Char)
  | [] => [[]]
  | c :: cs =>
    if c = ',' then [] :: splitComma cs
    else
      match splitComma cs with
      | [] => [[c]]
      | t :: ts => (c :: t) :: ts

/-- `token.replace(/\\s+/g, '')`: remove every occurrence of a literal
backslash followed by a run of letter-`s` characters (`\\` in a JS regex
literal matches one backslash, so `s` is a literal character here).  The
flag records that we are inside the `s+` run of a started match. -/
def stripBsS : Bool → List Char → List Char
  | _, [] => []
  | inRun, c :: cs =>
    if inRun && c == 's' then stripBsS true cs
    else if c == '\\' && cs.head? == some 's' then stripBsS true cs
    else c :: stripBsS false cs

/-- One line terminator for the regex `.` class (never matched by `.`). -/
def isLineTerm (c : Char) : Bool :=
  decide (c.toNat = 10) || decide (c.toNat = 13) ||
  decide (c.toNat = 0x2028) || decide (c.toNat = 0x2029)

/-- The colon-form regex `/^([A-Za-z]+)\:(.+)$/` of the source, written
there as `/^([A-Za-z]+)\\:(.+)$/`, i.e. letters, a literal backslash, a
colon, then a nonempty remainder of non-line-terminators.  Returns the two
captures `(prefix letters, range text)`. -/
def matchColonTok (t : List Char) : Option (List Char × List Char) :=
  let ls := t.takeWhile isAsciiLetter
  match ls, t.dropWhile isAsciiLetter with
  | [], _ => Option.none
  | _, '\\' :: ':' :: r2 =>
    if !r2.isEmpty && r2.all (fun c => !isLineTerm c) then some (ls, r2)
    else Option.none
  | _, _ => Option.none

/-- Consume the regex piece `(\\d+)` (a literal backslash then one or more
letter-`d` characters) from the front; returns the capture (which includes
the backslash, as the JS capture group does) and the rest. -/
def matchBsNum : List Char → Option (List Char × List Char)
  | '\\' :: cs =>
    let ds := cs.takeWhile (· == 'd')
    if ds.isEmpty then Option.none
    else some ('\\' :: ds, cs.dropWhile (· == 'd'))
  | _ => Option.none

/-- The range regex `/^(\\d+)(?:\\-(\\d+))?$/` of the source (also used as
the bare-numeric token regex): returns the captures `m[1]` and `m[2]`. -/
def matchBsRange (t : List Char) : Option (List Char × Option (List Char)) :=
  match matchBsNum t with
  | Option.none => Option.none
  | some (c1, rest) =>
    match rest with
    | [] => some (c1, Option.none)
    | '\\' :: '-' :: r2 =>
      match matchBsNum r2 with
      | some (c2, []) => some (c1, some c2)
      | _ => Option.none
    | _ => Option.none

/-- The concatenated-form regex `/^([A-Za-z]+)(\\d+)(?:\\-(\\d+))?$/` of the
source; on success the source rebuilds the range text as
`prefixed[2] + (prefixed[3] ? '-' + prefixed[3] : '')`. -/
def matchPrefixedTok (t : List Char) : Option (List Char × List Char) :=
  let ls := t.takeWhile isAsciiLetter
  if ls.isEmpty then Option.none
  else
    match matchBsRange (t.dropWhile isAsciiLetter) with
    | Option.none => Option.none
    | some (c1, Option.none) => some (ls, c1)
    | some (c1, some c2) => some (ls, c1 ++ '-' :: c2)

/-- The value of a decimal digit run. -/
def digitsToNat (l : List Char) : Nat :=
  l.foldl (fun a c => a * 10 + (c.toNat - 48)) 0

/-- `parseInt(s, 10)`: skip whitespace, optional sign, then a maximal
digit run; `Option.none` models `NaN` (no digits found). -/
def jsParseIntDec (l : List Char) : Option Int :=
  let l1 := l.dropWhile isJsSpace
  match l1 with
  | '-' :: rest =>
    let ds := rest.takeWhile isAsciiDigit
    if ds.isEmpty then Option.none else some (-(digitsToNat ds : Int))
  | '+' :: rest =>
    let ds := rest.takeWhile isAsciiDigit
    if ds.isEmpty then Option.none else some (digitsToNat ds : Int)
  | rest =>
    let ds := rest.takeWhile isAsciiDigit
    if ds.isEmpty then Option.none else some (digitsToNat ds : Int)

/-- `addRule(prefix, a, b)` from `compileShelfScope`: skip when the
normalized prefix is empty or either bound is `NaN`, else push the
`lo ≤ hi`-oriented rule. -/
def addScopeRule (rules : List ScopeRule) (pfxArg : String) (a b : Option Int) :
    List ScopeRule :=
  let p := normalizeScopePfx pfxArg
  if p = "" then rules
  else
    match a, b with
    | some la, some lb => rules ++ [⟨p, min la lb, max la lb⟩]
    | _, _ => rules

/-- The mutable state threaded through `compileShelfScope`'s token loop. -/
structure ParseState where
  lastPfx : Option String
  rules : List ScopeRule
  errors : List String
deriving DecidableEq

/-- The body of `parts.forEach(tokenRaw => ...)` in `compileShelfScope`. -/
def scopeTokenStep (implicit : List String) (st : ParseState)
    (tokenRaw : List Char) : ParseState :=
  let token := stripBsS false tokenRaw
  if token.isEmpty then st
  else
    let colonOrPrefixed : Option (List Char × List Char) :=
      match matchColonTok token with
      | some x => some x
      | Option.none => matchPrefixedTok token
    match colonOrPrefixed with
    | some (ls, rangeText) =>
      let lp := normalizeScopePfx (String.mk ls)
      match matchBsRange rangeText with
      | Option.none =>
        { st with lastPfx := some lp,
                  errors := st.errors ++ ["Invalid range: " ++ String.mk tokenRaw] }
      | some (c1, c2) =>
        let a := jsParseIntDec c1
        let b := jsParseIntDec (c2.getD c1)
        { st with lastPfx := some lp, rules := addScopeRule st.rules lp a b }
    | Option.none =>
      match matchBsRange token with
      | some (c1, c2) =>
        let a := jsParseIntDec c1
        let b := jsParseIntDec (c2.getD c1)
        let pfxs := match st.lastPfx with
          | some lp => [lp]
          | Option.none => implicit
        if pfxs.isEmpty then
          { st with errors := st.errors ++ ["Missing prefix for: " ++ String.mk tokenRaw] }
        else
          { st with rules := pfxs.foldl (fun rs p => addScopeRule rs p a b) st.rules }
      | Option.none =>
        { st with errors := st.errors ++ ["Unrecognized token: " ++ String.mk tokenRaw] }

/-- `compileShelfScope(text, options)` from the source. -/
def compileShelfScope (text : String) (options : ScopeOptions) : CompiledScope :=
  let raw := jsNorm text
  let implicit := (options.implicitPrefixes.map normalizeScopePfx).filter
    (fun p => !(p == ""))
  if raw = "" then
    { raw := "", rules := [], errors := [], implicitPrefixes := implicit }
  else
    let parts := ((splitComma raw.data).map jsTrimL).filter (fun p => !p.isEmpty)
    let st := parts.foldl (scopeTokenStep implicit) ⟨Option.none, [], []⟩
    { raw := raw, rules := mergeScopeRules st.rules, errors := st.errors,
      implicitPrefixes := implicit }

/-- The `LocationIdentifier` produced by `parseShelfName`. -/
structure ShelfParts where
  full : String
  pfx : String
  number : Option Int
  digits : String
  suffix : String
deriving DecidableEq

/-- `parseShelfName(name)` from the source: match the (correctly escaped)
regex `/^([A-Za-z]+)(\d+)([A-Za-z]+)?$/` against `dom.norm(name)`. -/
def parseShelfName (name : String) : ShelfParts :=
  let full := jsNorm name
  let l := full.data
  let ls := l.takeWhile isAsciiLetter
  let r1 := l.dropWhile isAsciiLetter
  let ds := r1.takeWhile isAsciiDigit
  let r2 := r1.dropWhile isAsciiDigit
  let sfx := r2.takeWhile isAsciiLetter
  let r3 := r2.dropWhile isAsciiLetter
  if ls.isEmpty || ds.isEmpty || !r3.isEmpty then
    { full := full, pfx := "", number := Option.none, digits := "", suffix := "" }
  else
    { full := full, pfx := String.mk ls, number := some (digitsToNat ds : Int),
      digits := String.mk ds, suffix := String.mk sfx }

/-- The `scope` argument of the matcher/filter: JS `null`/`undefined`, a raw
string, or a compiled scope object. -/
inductive ScopeArg where
  | absent
  | str (s : String)
  | compiled (c : CompiledScope)

/-- The body of `matchShelfNameScope` after the scope has been compiled. -/
def matchCompiledScope (name : String) (compiled : CompiledScope) : Bool :=
  if compiled.rules.isEmpty then true
  else
    let parts := parseShelfName name
    match parts.number with
    | Option.none => false
    | some n =>
      let p := normalizeScopePfx parts.pfx
      if p = "" then false
      else compiled.rules.any fun r =>
        r.pfx == p && decide (r.lo ≤ n) && decide (n ≤ r.hi)

/-- `matchShelfNameScope(name, scope)` from the source; a falsy scope (JS
`null`/`undefined`/`''`) returns `true`, a string scope is compiled with
default options first. -/
def matchShelfNameScope (name : String) (scope : ScopeArg) : Bool :=
  match scope with
  | ScopeArg.absent => true
  | ScopeArg.str s =>
    if s = "" then true
    else matchCompiledScope name (compileShelfScope s ⟨[]⟩)
  | ScopeArg.compiled c => matchCompiledScope name c

/-- `filterShelfNamesByScope(names, scope)` from the source.  `list.slice()`
is the identity at the level of list values. -/
def filterShelfNamesByScope (names : List String) (scope : ScopeArg) : List String :=
  match scope with
  | ScopeArg.absent => names
  | ScopeArg.str s =>
    if s = "" then names
    else
      let compiled := compileShelfScope s ⟨[]⟩
      if compiled.rules.isEmpty then names
      else names.filter fun n => matchShelfNameScope n (ScopeArg.compiled compiled)
  | ScopeArg.compiled c =>
    if c.rules.isEmpty then names
    else names.filter fun n => matchShelfNameScope n (ScopeArg.compiled c)

/-! ## Helper lemmas for the matcher -/

lemma dropWhile_eq_self_of_head {p : Char → Bool} : ∀ {l : List Char},
    (∀ c ∈ l.head?, p c = false) → l.dropWhile p = l
  | [], _ => rfl
  | c :: cs, h => by
    have hc : p c = false := h c rfl
    simp [List.dropWhile_cons, hc]

lemma collapseWs_eq_self_of_no_ws : ∀ {l : List Char} (b : Bool),
    (∀ c ∈ l, isJsSpace c = false) → collapseWs b l = l
  | [], _, _ => rfl
  | c :: cs, b, h => by
    have hc : isJsSpace c = false := h c (List.mem_cons_self c cs)
    simp only [collapseWs, hc, Bool.false_eq_true, if_false]
    exact congrArg (c :: ·) (collapseWs_eq_self_of_no_ws false
      fun d hd => h d (List.mem_cons_of_mem c hd))

lemma normChars_eq_self_of_no_ws {l : List Char}
    (h : ∀ c ∈ l, isJsSpace c = false) : normChars l = l := by
  have htrim : jsTrimL l = l := by
    unfold jsTrimL
    rw [dropWhile_eq_self_of_head fun c hc =>
      h c (List.mem_of_mem_head? hc)]
    rw [dropWhile_eq_self_of_head fun c hc => by
      have : c ∈ l.reverse := List.mem_of_mem_head? hc
      exact h c (List.mem_reverse.mp this)]
    exact List.reverse_reverse l
  unfold normChars
  rw [htrim]
  exact collapseWs_eq_self_of_no_ws false h

lemma matchCompiledScope_eq_false_of_none {name : String} {c : CompiledScope}
    (h1 : (parseShelfName name).number = Option.none) (h2 : c.rules ≠ []) :
    matchCompiledScope name c = false := by
  unfold matchCompiledScope
  rw [List.isEmpty_eq_false.mpr h2]
  simp only [Bool.false_eq_true, if_false, h1]

/-! ## Claims -/

/-- C1 (code bug): the spec's end-to-end example fails on the code as
written.  Because the concatenated-form regex is written
`/^([A-Za-z]+)(\\d+)(?:\\-(\\d+))?$/` (literal backslashes), the token
`A1-10` matches no grammar form: the scope compiles to zero rules with an
"Unrecognized token" diagnostic, and `filterShelfNamesByScope` therefore
returns the whole input list instead of `["A3","A1Z"]`. -/
theorem c1_filter_not_per_spec :
    (compileShelfScope "A1-10" ⟨[]⟩).rules = [] ∧
    (compileShelfScope "A1-10" ⟨[]⟩).errors = ["Unrecognized token: A1-10"] ∧
    filterShelfNamesByScope ["A3", "A12", "B1", "A1Z"] (ScopeArg.str "A1-10") =
      ["A3", "A12", "B1", "A1Z"] ∧
    filterShelfNamesByScope ["A3", "A12", "B1", "A1Z"] (ScopeArg.str "A1-10") ≠
      ["A3", "A1Z"] := by
  refine ⟨by decide, by decide, by decide, by decide⟩

/-- C2 (code bug): compiling `"A1-5, A6-10"` does not produce the single
merged rule `{A,1,10}`; both tokens fail every (literal-backslash) regex,
so the compiled scope has no rules and two "Unrecognized token" errors. -/
theorem c2_compile_adjacent_not_merged :
    (compileShelfScope "A1-5, A6-10" ⟨[]⟩).rules = [] ∧
    (compileShelfScope "A1-5, A6-10" ⟨[]⟩).rules ≠ [⟨"A", 1, 10⟩] ∧
    (compileShelfScope "A1-5, A6-10" ⟨[]⟩).errors =
      ["Unrecognized token: A1-5", "Unrecognized token: A6-10"] := by
  refine ⟨by decide, by decide, by decide⟩

/-- C3 (code bug): a token in the explicit colon form (letters, `:`,
digits) is not accepted: the colon regex is written
`/^([A-Za-z]+)\\:(.+)$/`, which requires a literal backslash before the
colon, so `C:10-15` is recorded as an unrecognized token, no rule is
emitted, and no carried prefix is established (a following bare token
still fails). -/
theorem c3_colon_token_rejected :
    (compileShelfScope "C:10-15" ⟨[]⟩).rules = [] ∧
    (compileShelfScope "C:10-15" ⟨[]⟩).errors =
      ["Unrecognized token: C:10-15"] ∧
    (compileShelfScope "C:10-15, 7" ⟨[]⟩).errors =
      ["Unrecognized token: C:10-15", "Unrecognized token: 7"] := by
  refine ⟨by decide, by decide, by decide⟩

/-- C4 (code bug): compiling the bare numeric text `"10-15"` with implicit
prefixes `["A","B"]` does not fan out: the bare-numeric regex is written
`/^(\\d+)(?:\\-(\\d+))?$/` (literal backslash and letter-`d`), so the token
is unrecognized and the rules list is empty. -/
theorem c4_no_implicit_fanout :
    (compileShelfScope "10-15" ⟨["A", "B"]⟩).rules = [] ∧
    (compileShelfScope "10-15" ⟨["A", "B"]⟩).rules ≠
      [⟨"A", 10, 15⟩, ⟨"B", 10, 15⟩] ∧
    (compileShelfScope "10-15" ⟨["A", "B"]⟩).errors =
      ["Unrecognized token: 10-15"] ∧
    (compileShelfScope "10-15" ⟨["A", "B"]⟩).implicitPrefixes = ["A", "B"] := by
  refine ⟨by decide, by decide, by decide, by decide⟩

/-- C5 (code bug): compiling `"10-15"` with no implicit prefixes does give
an empty rules list and exactly one error, but the error is
"Unrecognized token: 10-15", not the missing-prefix diagnostic: the
bare-numeric branch that would emit "Missing prefix for: 10-15" is
unreachable because its regex only matches backslash-`d` sequences. -/
theorem c5_wrong_missing_prefix_error :
    (compileShelfScope "10-15" ⟨[]⟩).rules = [] ∧
    (compileShelfScope "10-15" ⟨[]⟩).errors = ["Unrecognized token: 10-15"] ∧
    (compileShelfScope "10-15" ⟨[]⟩).errors ≠ ["Missing prefix for: 10-15"] := by
  refine ⟨by decide, by decide, by decide⟩

/-- C8: an absent scope, or a compiled scope with an empty rules list,
matches every identifier, and filtering with it returns the input list
unchanged (the JS `list.slice()` copy is the identity on list values). -/
theorem c8_empty_scope_default_allow (name : String) (names : List String)
    (c : CompiledScope) (h : c.rules = []) :
    matchShelfNameScope name ScopeArg.absent = true ∧
    matchShelfNameScope name (ScopeArg.compiled c) = true ∧
    filterShelfNamesByScope names ScopeArg.absent = names ∧
    filterShelfNamesByScope names (ScopeArg.compiled c) = names := by
  refine ⟨rfl, ?_, rfl, ?_⟩
  · simp [matchShelfNameScope, matchCompiledScope, h]
  · simp [filterShelfNamesByScope, h]

/-- Witness for C8 at a concrete empty scope and list. -/
theorem c8_empty_scope_default_allow_witness :
    (⟨"", [], [], []⟩ : CompiledScope).rules = [] ∧
    (matchShelfNameScope "A3" ScopeArg.absent = true ∧
     matchShelfNameScope "A3" (ScopeArg.compiled ⟨"", [], [], []⟩) = true ∧
     filterShelfNamesByScope ["A3", "B1"] ScopeArg.absent = ["A3", "B1"] ∧
     filterShelfNamesByScope ["A3", "B1"] (ScopeArg.compiled ⟨"", [], [], []⟩) =
       ["A3", "B1"]) :=
  ⟨rfl, c8_empty_scope_default_allow "A3" ["A3", "B1"] ⟨"", [], [], []⟩ rfl⟩

/-- C9: an identifier whose parsed `number` is null never matches a scope
with a non-empty rules list. -/
theorem c9_malformed_no_match (name : String) (c : CompiledScope)
    (h1 : (parseShelfName name).number = Option.none) (h2 : c.rules ≠ []) :
    matchShelfNameScope name (ScopeArg.compiled c) = false :=
  matchCompiledScope_eq_false_of_none h1 h2

/-- Witness for C9 at `"???"` against the scope `{A,1,5}`. -/
theorem c9_malformed_no_match_witness :
    (parseShelfName "???").number = Option.none ∧
    (⟨"", [⟨"A", 1, 5⟩], [], []⟩ : CompiledScope).rules ≠ [] ∧
    matchShelfNameScope "???"
      (ScopeArg.compiled ⟨"", [⟨"A", 1, 5⟩], [], []⟩) = false :=
  ⟨by decide, by decide,
   c9_malformed_no_match "???" ⟨"", [⟨"A", 1, 5⟩], [], []⟩ (by decide) (by decide)⟩

/-- C10: a purely numeric identifier (digits only) parses with `number`
null — the leading alphabetic run of `parseShelfName`'s regex must be
non-empty — and hence never matches a scope with non-empty rules. -/
theorem c10_numeric_only_no_match (s : String)
    (hd : ∀ c ∈ s.data, isAsciiDigit c = true) :
    (parseShelfName s).number = Option.none ∧
    ∀ c : CompiledScope, c.rules ≠ [] →
      matchShelfNameScope s (ScopeArg.compiled c) = false := by
  have hnum : (parseShelfName s).number = Option.none := by
    have hnw : ∀ c ∈ s.data, isJsSpace c = false := by
      intro c hc
      have := hd c hc
      unfold isAsciiDigit at this
      unfold isJsSpace
      simp only [Bool.and_eq_true, decide_eq_true_eq] at this
      simp only [Bool.or_eq_false_iff, decide_eq_false_iff_not]
      omega
    have hfull : (jsNorm s).data = s.data := by
      unfold jsNorm
      exact congrArg String.data (congrArg String.mk (normChars_eq_self_of_no_ws hnw))
    unfold parseShelfName
    simp only [hfull]
    cases hs : s.data with
    | nil => simp
    | cons c cs =>
      have hdc : isAsciiDigit c = true := hd c (hs ▸ List.mem_cons_self c cs)
      have hlc : isAsciiLetter c = false := by
        unfold isAsciiDigit at hdc
        unfold isAsciiLetter
        simp only [Bool.and_eq_true, decide_eq_true_eq] at hdc
        simp only [Bool.or_eq_false_iff, Bool.and_eq_false_iff,
          decide_eq_false_iff_not]
        omega
      simp [List.takeWhile_cons, hlc]
  refine ⟨hnum, fun c hc => matchCompiledScope_eq_false_of_none hnum hc⟩

/-- Witness for C10 at `"123"` against the scope `{A,1,5}`. -/
theorem c10_numeric_only_no_match_witness :
    (parseShelfName "123").number = Option.none ∧
    matchShelfNameScope "123"
      (ScopeArg.compiled ⟨"", [⟨"A", 1, 5⟩], [], []⟩) = false :=
  ⟨(c10_numeric_only_no_match "123" (by decide)).1,
   (c10_numeric_only_no_match "123" (by decide)).2
     ⟨"", [⟨"A", 1, 5⟩], [], []⟩ (by decide)⟩

/-! ## The merge invariant (C6) -/

/-- Strict non-adjacency between two rules: the first interval's end plus
one is strictly below the second interval's start. -/
def gapRel (a b : ScopeRule) : Prop := a.hi + 1 < b.lo

/-- Comparison of rules by their `lo` field only. -/
def loLe (a b : ScopeRule) : Prop := a.lo ≤ b.lo

lemma sweepRanges_ne_nil : ∀ (rs : List ScopeRule) (cur : ScopeRule),
    sweepRanges cur rs ≠ []
  | [], cur => by simp [sweepRanges]
  | r :: rs, cur => by
    rw [sweepRanges]
    by_cases h : r.lo ≤ cur.hi + 1
    · rw [if_pos h]; exact sweepRanges_ne_nil rs _
    · rw [if_neg h]; simp

lemma sweepRanges_props (p : String) (rs : List ScopeRule) :
    ∀ cur : ScopeRule, cur.pfx = p → (∀ x ∈ rs, x.pfx = p) →
      cur.lo ≤ cur.hi → (∀ x ∈ rs, x.lo ≤ x.hi) →
      List.Pairwise loLe (cur :: rs) →
      (∀ x ∈ sweepRanges cur rs, x.pfx = p ∧ x.lo ≤ x.hi ∧ cur.lo ≤ x.lo) ∧
      List.Pairwise gapRel (sweepRanges cur rs) := by
  induction rs with
  | nil =>
    intro cur hp _ hlh _ _
    refine ⟨?_, by simp [sweepRanges]⟩
    intro x hx
    simp only [sweepRanges, List.mem_singleton] at hx
    subst hx
    exact ⟨hp, hlh, le_refl _⟩
  | cons r rs ih =>
    intro cur hp hps hlh hlhs hpw
    rw [List.pairwise_cons] at hpw
    obtain ⟨hcur_le, hpw'⟩ := hpw
    by_cases hcase : r.lo ≤ cur.hi + 1
    · have heq : sweepRanges cur (r :: rs) =
          sweepRanges ⟨cur.pfx, cur.lo, max cur.hi r.hi⟩ rs := by
        rw [sweepRanges, if_pos hcase]
      rw [heq]
      exact ih ⟨cur.pfx, cur.lo, max cur.hi r.hi⟩ hp
        (fun x hx => hps x (List.mem_cons_of_mem r hx))
        (le_trans hlh (le_max_left _ _))
        (fun x hx => hlhs x (List.mem_cons_of_mem r hx))
        (List.pairwise_cons.mpr
          ⟨fun x hx => hcur_le x (List.mem_cons_of_mem r hx),
           (List.pairwise_cons.mp hpw').2⟩)
    · have heq : sweepRanges cur (r :: rs) = cur :: sweepRanges r rs := by
        rw [sweepRanges, if_neg hcase]
      have hgap : cur.hi + 1 < r.lo := not_le.mp hcase
      obtain ⟨ihmem, ihpw⟩ := ih r (hps r (List.mem_cons_self r rs))
        (fun x hx => hps x (List.mem_cons_of_mem r hx))
        (hlhs r (List.mem_cons_self r rs))
        (fun x hx => hlhs x (List.mem_cons_of_mem r hx)) hpw'
      rw [heq]
      constructor
      · intro x hx
        rcases List.mem_cons.mp hx with hx | hx
        · subst hx; exact ⟨hp, hlh, le_refl _⟩
        · obtain ⟨h1, h2, h3⟩ := ihmem x hx
          exact ⟨h1, h2, le_trans (hcur_le r (List.mem_cons_self r rs)) h3⟩
      · refine List.pairwise_cons.mpr ⟨?_, ihpw⟩
        intro x hx
        exact lt_of_lt_of_le hgap (ihmem x hx).2.2

lemma mergeGroup_props (p : String) (g : List ScopeRule)
    (hps : ∀ x ∈ g, x.pfx = p) (hlh : ∀ x ∈ g, x.lo ≤ x.hi) :
    (∀ x ∈ mergeGroup g, x.pfx = p ∧ x.lo ≤ x.hi) ∧
    List.Pairwise gapRel (mergeGroup g) ∧ (g ≠ [] → mergeGroup g ≠ []) := by
  unfold mergeGroup
  have hperm := List.perm_insertionSort leRule g
  have hsorted := List.sorted_insertionSort leRule g
  cases hs : List.insertionSort leRule g with
  | nil =>
    rw [hs] at hperm
    have hg : g = [] := (List.Perm.nil_eq hperm).symm
    refine ⟨by simp, by simp, fun h => absurd hg h⟩
  | cons c t =>
    rw [hs] at hperm hsorted
    have hmem : ∀ x ∈ c :: t, x ∈ g := fun x hx => hperm.mem_iff.mp hx
    have hloLe : List.Pairwise loLe (c :: t) := by
      refine hsorted.imp ?_
      intro a b hab
      rcases hab with h | ⟨h, _⟩
      · exact le_of_lt h
      · exact le_of_eq h
    obtain ⟨hm, hpw⟩ := sweepRanges_props p t c
      (hps c (hmem c (List.mem_cons_self c t)))
      (fun x hx => hps x (hmem x (List.mem_cons_of_mem c hx)))
      (hlh c (hmem c (List.mem_cons_self c t)))
      (fun x hx => hlh x (hmem x (List.mem_cons_of_mem c hx)))
      hloLe
    exact ⟨fun x hx => ⟨(hm x hx).1, (hm x hx).2.1⟩, hpw,
      fun _ => sweepRanges_ne_nil t c⟩

lemma mem_pre_props {R : List ScopeRule} {x : ScopeRule}
    (hx : x ∈ R.filterMap normScopeEntry) :
    x.pfx ≠ "" ∧ x.lo ≤ x.hi ∧ ∃ r ∈ R, x.pfx = normalizeScopePfx r.pfx := by
  rw [List.mem_filterMap] at hx
  obtain ⟨r, hr, he⟩ := hx
  unfold normScopeEntry at he
  by_cases hp : normalizeScopePfx r.pfx = ""
  · rw [if_pos hp] at he
    exact absurd he (by simp)
  · rw [if_neg hp, Option.some.injEq] at he
    subst he
    exact ⟨hp, min_le_max, r, hr, rfl⟩

lemma mem_firstKeys {p : String} : ∀ {l : List ScopeRule},
    p ∈ firstKeys l ↔ ∃ r ∈ l, r.pfx = p := by
  intro l
  induction l with
  | nil => simp [firstKeys]
  | cons r rs ih =>
    rw [firstKeys]
    constructor
    · intro h
      rcases List.mem_cons.mp h with h | h
      · exact ⟨r, List.mem_cons_self r rs, h.symm⟩
      · obtain ⟨r', hr', he⟩ := ih.mp (List.mem_filter.mp h).1
        exact ⟨r', List.mem_cons_of_mem r hr', he⟩
    · rintro ⟨r', hr', he⟩
      rcases List.mem_cons.mp hr' with h | h
      · have hpr : p = r.pfx := by rw [← he, h]
        rw [hpr]
        exact List.mem_cons_self _ _
      · by_cases hpr : p = r.pfx
        · rw [hpr]
          exact List.mem_cons_self _ _
        · refine List.mem_cons_of_mem _ (List.mem_filter.mpr
            ⟨ih.mpr ⟨r', h, he⟩, ?_⟩)
          simp [hpr]

lemma firstKeys_nodup : ∀ (l : List ScopeRule), (firstKeys l).Nodup
  | [] => List.nodup_nil
  | r :: rs => by
    rw [firstKeys, List.nodup_cons]
    refine ⟨?_, (firstKeys_nodup rs).filter _⟩
    intro hmem
    rw [List.mem_filter] at hmem
    simp at hmem

lemma mergeScopeRules_props (R : List ScopeRule) :
    (∀ x ∈ mergeScopeRules R,
      x.lo ≤ x.hi ∧ x.pfx ≠ "" ∧ ∃ r ∈ R, x.pfx = normalizeScopePfx r.pfx) ∧
    List.Pairwise (fun a b => a.pfx = b.pfx → a.hi + 1 < b.lo)
      (mergeScopeRules R) := by
  simp only [mergeScopeRules]
  have hgrp : ∀ p ∈ firstKeys (R.filterMap normScopeEntry),
      (∀ x ∈ mergeGroup ((R.filterMap normScopeEntry).filter
        fun r => r.pfx == p), x.pfx = p ∧ x.lo ≤ x.hi) ∧
      List.Pairwise gapRel (mergeGroup ((R.filterMap normScopeEntry).filter
        fun r => r.pfx == p)) := by
    intro p _
    have h := mergeGroup_props p
      ((R.filterMap normScopeEntry).filter fun r => r.pfx == p)
      (fun x hx => by
        have := (List.mem_filter.mp hx).2
        exact eq_of_beq this)
      (fun x hx => (mem_pre_props (List.mem_filter.mp hx).1).2.1)
    exact ⟨h.1, h.2.1⟩
  constructor
  · intro x hx
    rw [List.mem_flatten] at hx
    obtain ⟨l, hl, hxl⟩ := hx
    rw [List.mem_map] at hl
    obtain ⟨p, hpk, hpl⟩ := hl
    subst hpl
    obtain ⟨hpfx, hlh⟩ := (hgrp p hpk).1 x hxl
    obtain ⟨r0, hr0, hr0p⟩ :
        ∃ r ∈ R.filterMap normScopeEntry, r.pfx = p := mem_firstKeys.mp hpk
    obtain ⟨hne, _, r1, hr1, he1⟩ := mem_pre_props hr0
    have hxp : x.pfx = r0.pfx := by rw [hpfx, hr0p]
    refine ⟨hlh, ?_, r1, hr1, ?_⟩
    · rw [hxp]; exact hne
    · rw [hxp]; exact he1
  · rw [List.pairwise_flatten]
    constructor
    · intro l hl
      rw [List.mem_map] at hl
      obtain ⟨p, hpk, hpl⟩ := hl
      subst hpl
      refine List.Pairwise.imp ?_ ((hgrp p hpk).2)
      intro a b h _
      exact h
    · rw [List.pairwise_map]
      have hnd : List.Pairwise (fun a b => a ≠ b)
          (firstKeys (R.filterMap normScopeEntry)) :=
        firstKeys_nodup (R.filterMap normScopeEntry)
      refine List.Pairwise.imp_of_mem ?_ hnd
      intro p q hp hq hne x hx y hy hpq
      exfalso
      apply hne
      rw [← ((hgrp p hp).1 x hx).1, ← ((hgrp q hq).1 y hy).1]
      exact hpq

/-- C6: every scope returned by `compileShelfScope` has `lo ≤ hi` in each
rule, and any two rules sharing a prefix are strictly non-adjacent
(`hi + 1 < lo` in list order; same-prefix rules appear in ascending `lo`
order, so this is the ordered-pairs form of the invariant). -/
theorem c6_compile_rules_invariant (text : String) (options : ScopeOptions) :
    (∀ r ∈ (compileShelfScope text options).rules, r.lo ≤ r.hi) ∧
    List.Pairwise (fun a b => a.pfx = b.pfx → a.hi + 1 < b.lo)
      (compileShelfScope text options).rules := by
  unfold compileShelfScope
  by_cases h : jsNorm text = ""
  · simp [h]
  · simp only [h, if_false]
    exact ⟨fun r hr => ((mergeScopeRules_props _).1 r hr).1,
      (mergeScopeRules_props _).2⟩

/-! ## Normalization is idempotent (towards C7) -/

lemma jsToUpperChar_of_not_lower {c : Char}
    (h : ¬(97 ≤ c.toNat ∧ c.toNat ≤ 122)) : jsToUpperChar c = c := by
  unfold jsToUpperChar
  rw [if_neg h]

lemma toNat_jsToUpperChar_of_lower {c : Char}
    (h : 97 ≤ c.toNat ∧ c.toNat ≤ 122) :
    (jsToUpperChar c).toNat = c.toNat - 32 := by
  unfold jsToUpperChar
  rw [if_pos h]
  unfold Char.ofNat
  rw [dif_pos (Or.inl (by omega))]
  rfl

lemma jsToUpperChar_of_space {c : Char} (h : isJsSpace c = true) :
    jsToUpperChar c = c := by
  apply jsToUpperChar_of_not_lower
  unfold isJsSpace at h
  simp only [Bool.or_eq_true, decide_eq_true_eq] at h
  omega

lemma jsToUpperChar_space : jsToUpperChar ' ' = ' ' :=
  jsToUpperChar_of_space (by decide)

lemma isJsSpace_jsToUpperChar (c : Char) :
    isJsSpace (jsToUpperChar c) = isJsSpace c := by
  by_cases h : 97 ≤ c.toNat ∧ c.toNat ≤ 122
  · have ht := toNat_jsToUpperChar_of_lower h
    have hl : isJsSpace c = false := by
      unfold isJsSpace
      simp only [Bool.or_eq_false_iff, decide_eq_false_iff_not]
      omega
    have hr : isJsSpace (jsToUpperChar c) = false := by
      unfold isJsSpace
      rw [ht]
      simp only [Bool.or_eq_false_iff, decide_eq_false_iff_not]
      omega
    rw [hl, hr]
  · rw [jsToUpperChar_of_not_lower h]

lemma jsToUpperChar_idem (c : Char) :
    jsToUpperChar (jsToUpperChar c) = jsToUpperChar c := by
  by_cases h : 97 ≤ c.toNat ∧ c.toNat ≤ 122
  · apply jsToUpperChar_of_not_lower
    rw [toNat_jsToUpperChar_of_lower h]
    omega
  · rw [jsToUpperChar_of_not_lower h, jsToUpperChar_of_not_lower h]

lemma collapseWs_map_upper (l : List Char) : ∀ b : Bool,
    collapseWs b (l.map jsToUpperChar) = (collapseWs b l).map jsToUpperChar := by
  induction l with
  | nil => intro b; rfl
  | cons c cs ih =>
    intro b
    by_cases h : isJsSpace c = true
    · have hu : jsToUpperChar c = c := jsToUpperChar_of_space h
      cases b <;>
        simp [collapseWs, isJsSpace_jsToUpperChar, h, hu, ih, jsToUpperChar_space]
    · rw [Bool.not_eq_true] at h
      cases b <;> simp [collapseWs, isJsSpace_jsToUpperChar, h, ih]

lemma dropWhile_isJsSpace_map_upper (l : List Char) :
    (l.map jsToUpperChar).dropWhile isJsSpace =
      (l.dropWhile isJsSpace).map jsToUpperChar := by
  rw [List.dropWhile_map]
  have : (isJsSpace ∘ jsToUpperChar) = isJsSpace := funext isJsSpace_jsToUpperChar
  rw [this]

lemma jsTrimL_map_upper (l : List Char) :
    jsTrimL (l.map jsToUpperChar) = (jsTrimL l).map jsToUpperChar := by
  unfold jsTrimL
  rw [dropWhile_isJsSpace_map_upper, ← List.map_reverse,
    dropWhile_isJsSpace_map_upper, ← List.map_reverse]

lemma normChars_map_upper (l : List Char) :
    normChars (l.map jsToUpperChar) = (normChars l).map jsToUpperChar := by
  unfold normChars
  rw [jsTrimL_map_upper, collapseWs_map_upper]

lemma head_dropWhile_false (p : Char → Bool) :
    ∀ (l : List Char) {c : Char}, ((l.dropWhile p).head? = some c) → p c = false
  | [], c => by intro h; simp [List.dropWhile] at h
  | c0 :: cs, c => by
    intro h
    by_cases hp : p c0
    · rw [List.dropWhile_cons, if_pos hp] at h
      exact head_dropWhile_false p cs h
    · rw [List.dropWhile_cons, if_neg hp] at h
      rw [List.head?_cons, Option.some.injEq] at h
      subst h
      exact Bool.not_eq_true _ ▸ hp

lemma jsTrimL_head_false {l : List Char} {c : Char}
    (h : (jsTrimL l).head? = some c) : isJsSpace c = false := by
  unfold jsTrimL at h
  have hsuf : (l.dropWhile isJsSpace).reverse.dropWhile isJsSpace <:+
      (l.dropWhile isJsSpace).reverse := List.dropWhile_suffix isJsSpace
  have hpre := List.reverse_prefix.mpr hsuf
  rw [List.reverse_reverse] at hpre
  obtain ⟨t, ht⟩ := hpre
  cases he : ((l.dropWhile isJsSpace).reverse.dropWhile isJsSpace).reverse with
  | nil => rw [he] at h; simp at h
  | cons x xs =>
    rw [he] at h ht
    rw [List.head?_cons, Option.some.injEq] at h
    subst h
    apply head_dropWhile_false isJsSpace l
    rw [← ht]
    simp

lemma jsTrimL_getLast_false {l : List Char} {c : Char}
    (h : (jsTrimL l).getLast? = some c) : isJsSpace c = false := by
  unfold jsTrimL at h
  rw [List.getLast?_reverse] at h
  exact head_dropWhile_false isJsSpace (l.dropWhile isJsSpace).reverse h

lemma collapseWs_space_mem : ∀ (l : List Char) (b : Bool) (c : Char),
    c ∈ collapseWs b l → isJsSpace c = true → c = ' '
  | [], b, c => by intro h _; simp [collapseWs] at h
  | c0 :: cs, b, c => by
    intro h hs
    by_cases h0 : isJsSpace c0 = true
    · cases b with
      | true =>
        rw [collapseWs, if_pos h0, if_pos rfl] at h
        exact collapseWs_space_mem cs true c h hs
      | false =>
        rw [collapseWs, if_pos h0, if_neg Bool.false_ne_true] at h
        rcases List.mem_cons.mp h with h | h
        · exact h
        · exact collapseWs_space_mem cs true c h hs
    · rw [collapseWs, if_neg h0] at h
      rcases List.mem_cons.mp h with h | h
      · subst h; rw [hs] at h0; exact absurd rfl h0
      · exact collapseWs_space_mem cs false c h hs

lemma collapseWs_chain : ∀ (l : List Char) (b : Bool),
    List.Chain' (fun a d => ¬(a = ' ' ∧ d = ' ')) (collapseWs b l) ∧
    (b = true → (collapseWs b l).head? ≠ some ' ')
  | [], b => by simp [collapseWs]
  | c0 :: cs, b => by
    by_cases h0 : isJsSpace c0 = true
    · cases b with
      | true =>
        rw [collapseWs, if_pos h0, if_pos rfl]
        exact collapseWs_chain cs true
      | false =>
        rw [collapseWs, if_pos h0, if_neg Bool.false_ne_true]
        obtain ⟨hch, hhd⟩ := collapseWs_chain cs true
        refine ⟨?_, fun hb => absurd hb Bool.false_ne_true⟩
        rw [List.chain'_cons']
        refine ⟨?_, hch⟩
        intro y hy hcon
        apply hhd rfl
        rw [← hcon.2]
        exact Option.mem_def.mp hy
    · rw [collapseWs, if_neg h0]
      obtain ⟨hch, _⟩ := collapseWs_chain cs false
      have hc0 : c0 ≠ ' ' := fun he => h0 (by rw [he]; decide)
      refine ⟨?_, ?_⟩
      · rw [List.chain'_cons']
        exact ⟨fun y _ hcon => hc0 hcon.1, hch⟩
      · intro _ hsome
        rw [List.head?_cons, Option.some.injEq] at hsome
        exact hc0 hsome

lemma collapseWs_getLast : ∀ (l : List Char) (b : Bool) (c : Char),
    l.getLast? = some c → isJsSpace c = false →
    (collapseWs b l).getLast? = some c
  | [], _, c => by intro h _; simp at h
  | [c0], b, c => by
    intro h hns
    have hc : c0 = c := by simpa using h
    subst hc
    have h0 : ¬(isJsSpace c0 = true) := by rw [hns]; exact Bool.false_ne_true
    rw [collapseWs, if_neg h0]
    simp [collapseWs]
  | c0 :: c1 :: rest, b, c => by
    intro h hns
    rw [List.getLast?_cons_cons] at h
    have ihT := collapseWs_getLast (c1 :: rest) true c h hns
    have ihF := collapseWs_getLast (c1 :: rest) false c h hns
    by_cases h0 : isJsSpace c0 = true
    · cases b with
      | true =>
        rw [collapseWs, if_pos h0, if_pos rfl]
        exact ihT
      | false =>
        rw [collapseWs, if_pos h0, if_neg Bool.false_ne_true]
        cases hx : collapseWs true (c1 :: rest) with
        | nil => rw [hx] at ihT; simp at ihT
        | cons y ys =>
          rw [List.getLast?_cons_cons, ← hx]
          exact ihT
    · rw [collapseWs, if_neg h0]
      cases hx : collapseWs false (c1 :: rest) with
      | nil => rw [hx] at ihF; simp at ihF
      | cons y ys =>
        rw [List.getLast?_cons_cons, ← hx]
        exact ihF

lemma collapseWs_eq_self_of_nf : ∀ (m : List Char) (b : Bool),
    (∀ c ∈ m, isJsSpace c = true → c = ' ') →
    List.Chain' (fun a d => ¬(a = ' ' ∧ d = ' ')) m →
    (b = true → m.head? ≠ some ' ') →
    collapseWs b m = m
  | [], _, _, _, _ => rfl
  | c :: cs, b, hsp, hch, hhd => by
    by_cases h0 : isJsSpace c = true
    · have hc : c = ' ' := hsp c (List.mem_cons_self c cs) h0
      cases b with
      | true =>
        exact absurd (show (c :: cs).head? = some ' ' by
          rw [List.head?_cons, hc]) (hhd rfl)
      | false =>
        rw [collapseWs, if_pos h0, if_neg Bool.false_ne_true]
        subst hc
        congr 1
        apply collapseWs_eq_self_of_nf cs true
          (fun d hd => hsp d (List.mem_cons_of_mem _ hd))
          ((List.chain'_cons'.mp hch).2)
        intro _ hsome
        exact (List.chain'_cons'.mp hch).1 ' ' (Option.mem_def.mpr hsome) ⟨rfl, rfl⟩
    · rw [collapseWs, if_neg h0]
      congr 1
      exact collapseWs_eq_self_of_nf cs false
        (fun d hd => hsp d (List.mem_cons_of_mem _ hd))
        ((List.chain'_cons'.mp hch).2)
        (fun hb => absurd hb Bool.false_ne_true)

lemma normChars_head_false {l : List Char} {c : Char}
    (h : (normChars l).head? = some c) : isJsSpace c = false := by
  unfold normChars at h
  cases ht : jsTrimL l with
  | nil => rw [ht] at h; simp [collapseWs] at h
  | cons x xs =>
    have hx : isJsSpace x = false := jsTrimL_head_false (by rw [ht]; rfl)
    rw [ht, collapseWs, if_neg (by rw [hx]; exact Bool.false_ne_true)] at h
    rw [List.head?_cons, Option.some.injEq] at h
    subst h
    exact hx

lemma normChars_getLast_false {l : List Char} {c : Char}
    (h : (normChars l).getLast? = some c) : isJsSpace c = false := by
  unfold normChars at h
  cases ht : jsTrimL l with
  | nil => rw [ht] at h; simp [collapseWs] at h
  | cons x xs =>
    cases hg : (x :: xs).getLast? with
    | none => simp at hg
    | some d =>
      have hd : isJsSpace d = false := jsTrimL_getLast_false (by rw [ht]; exact hg)
      have hcl := collapseWs_getLast (x :: xs) false d hg hd
      rw [ht, hcl, Option.some.injEq] at h
      subst h
      exact hd

lemma normChars_space_mem {l : List Char} {c : Char} (hc : c ∈ normChars l)
    (hs : isJsSpace c = true) : c = ' ' :=
  collapseWs_space_mem (jsTrimL l) false c hc hs

lemma normChars_chain (l : List Char) :
    List.Chain' (fun a d => ¬(a = ' ' ∧ d = ' ')) (normChars l) :=
  (collapseWs_chain (jsTrimL l) false).1

lemma normChars_idem (l : List Char) : normChars (normChars l) = normChars l := by
  have htrim : jsTrimL (normChars l) = normChars l := by
    unfold jsTrimL
    have h1 : (normChars l).dropWhile isJsSpace = normChars l :=
      dropWhile_eq_self_of_head fun c hc => normChars_head_false (Option.mem_def.mp hc)
    have h2 : (normChars l).reverse.dropWhile isJsSpace = (normChars l).reverse :=
      dropWhile_eq_self_of_head fun c hc => by
        rw [List.head?_reverse] at hc
        exact normChars_getLast_false (Option.mem_def.mp hc)
    rw [h1, h2, List.reverse_reverse]
  show collapseWs false (jsTrimL (normChars l)) = normChars l
  rw [htrim]
  exact collapseWs_eq_self_of_nf (normChars l) false
    (fun c hc hs => normChars_space_mem hc hs)
    (normChars_chain l)
    (fun hb => absurd hb Bool.false_ne_true)

lemma normalizeScopePfx_idem (s : String) :
    normalizeScopePfx (normalizeScopePfx s) = normalizeScopePfx s := by
  show String.mk ((normChars ((normChars s.data).map jsToUpperChar)).map jsToUpperChar) =
    String.mk ((normChars s.data).map jsToUpperChar)
  rw [normChars_map_upper, normChars_idem, List.map_map]
  congr 1
  apply List.map_congr_left
  intro a _
  exact jsToUpperChar_idem a

/-! ## Merge is idempotent (C7) -/

lemma mergeScopeRules_eq (rules : List ScopeRule) :
    mergeScopeRules rules =
      ((firstKeys (rules.filterMap normScopeEntry)).map fun p =>
        mergeGroup ((rules.filterMap normScopeEntry).filter
          fun r => r.pfx == p)).flatten := rfl

lemma normScopeEntry_fixed {x : ScopeRule} (hp : normalizeScopePfx x.pfx = x.pfx)
    (hne : x.pfx ≠ "") (hlh : x.lo ≤ x.hi) : normScopeEntry x = some x := by
  unfold normScopeEntry
  rw [hp, if_neg hne, min_eq_left hlh, max_eq_right hlh]

lemma filterMap_norm_eq_self : ∀ {l : List ScopeRule},
    (∀ x ∈ l, normScopeEntry x = some x) → l.filterMap normScopeEntry = l
  | [], _ => rfl
  | a :: t, h => by
    have hc : List.filterMap normScopeEntry (a :: t) =
        a :: List.filterMap normScopeEntry t := by
      simp only [List.filterMap_cons, h a (List.mem_cons_self a t)]
    rw [hc, filterMap_norm_eq_self (fun x hx => h x (List.mem_cons_of_mem a hx))]

lemma firstKeys_append_block {p : String} : ∀ (A : List ScopeRule), A ≠ [] →
    (∀ x ∈ A, x.pfx = p) → ∀ (B : List ScopeRule),
    firstKeys (A ++ B) = p :: (firstKeys B).filter (fun q => !(q == p))
  | [], h, _, _ => absurd rfl h
  | [x], _, hall, B => by
    have hx : x.pfx = p := hall x (List.mem_cons_self x [])
    rw [List.singleton_append, firstKeys, hx]
  | x :: y :: A', _, hall, B => by
    have hx : x.pfx = p := hall x (List.mem_cons_self _ _)
    rw [List.cons_append, firstKeys,
      firstKeys_append_block (y :: A') (List.cons_ne_nil y A')
        (fun z hz => hall z (List.mem_cons_of_mem x hz)) B, hx]
    congr 1
    rw [List.filter_cons]
    have hpp : (!(p == p)) = false := by simp
    rw [hpp, if_neg Bool.false_ne_true, List.filter_filter]
    apply List.filter_congr
    intro a _
    exact Bool.and_self _

lemma firstKeys_flatten_blocks : ∀ (ks : List String)
    (f : String → List ScopeRule), ks.Nodup → (∀ p ∈ ks, f p ≠ []) →
    (∀ p ∈ ks, ∀ x ∈ f p, x.pfx = p) →
    firstKeys ((ks.map f).flatten) = ks
  | [], _, _, _, _ => rfl
  | p :: ks, f, hnd, hne, hall => by
    rw [List.map_cons, List.flatten_cons,
      firstKeys_append_block (f p) (hne p (List.mem_cons_self _ _))
        (hall p (List.mem_cons_self _ _)) _,
      firstKeys_flatten_blocks ks f (List.nodup_cons.mp hnd).2
        (fun q hq => hne q (List.mem_cons_of_mem _ hq))
        (fun q hq => hall q (List.mem_cons_of_mem _ hq))]
    congr 1
    apply List.filter_eq_self.mpr
    intro q hq
    have hqp : q ≠ p := fun he => (List.nodup_cons.mp hnd).1 (he ▸ hq)
    simp [hqp]

lemma filter_flatten_blocks_ne {p : String} : ∀ (ks : List String)
    (f : String → List ScopeRule), p ∉ ks →
    (∀ q ∈ ks, ∀ x ∈ f q, x.pfx = q) →
    ((ks.map f).flatten).filter (fun r => r.pfx == p) = []
  | [], _, _, _ => rfl
  | q :: ks, f, hnp, hall => by
    rw [List.map_cons, List.flatten_cons, List.filter_append,
      filter_flatten_blocks_ne ks f (fun h => hnp (List.mem_cons_of_mem _ h))
        (fun q' hq' => hall q' (List.mem_cons_of_mem _ hq')),
      List.append_nil]
    apply List.filter_eq_nil_iff.mpr
    intro x hx
    have hxq : x.pfx = q := hall q (List.mem_cons_self _ _) x hx
    have hqp : q ≠ p := fun he => hnp (he ▸ List.mem_cons_self q ks)
    simp [hxq, hqp]

lemma filter_flatten_blocks {p : String} : ∀ (ks : List String)
    (f : String → List ScopeRule), ks.Nodup → p ∈ ks →
    (∀ q ∈ ks, ∀ x ∈ f q, x.pfx = q) →
    ((ks.map f).flatten).filter (fun r => r.pfx == p) = f p
  | [], _, _, hp, _ => absurd hp (List.not_mem_nil p)
  | q :: ks, f, hnd, hp, hall => by
    rw [List.map_cons, List.flatten_cons, List.filter_append]
    by_cases hpq : p = q
    · subst hpq
      rw [filter_flatten_blocks_ne ks f (List.nodup_cons.mp hnd).1
        (fun q' hq' => hall q' (List.mem_cons_of_mem _ hq')), List.append_nil]
      apply List.filter_eq_self.mpr
      intro x hx
      simp [hall p (List.mem_cons_self _ _) x hx]
    · have hpks : p ∈ ks := by
        rcases List.mem_cons.mp hp with h | h
        · exact absurd h hpq
        · exact h
      rw [filter_flatten_blocks ks f (List.nodup_cons.mp hnd).2 hpks
        (fun q' hq' => hall q' (List.mem_cons_of_mem _ hq'))]
      have hqf : (f q).filter (fun r => r.pfx == p) = [] := by
        apply List.filter_eq_nil_iff.mpr
        intro x hx
        have hxq : x.pfx = q := hall q (List.mem_cons_self _ _) x hx
        rw [hxq]
        simp only [beq_iff_eq]
        exact fun he => hpq he.symm
      rw [hqf, List.nil_append]

lemma sweepRanges_of_gapped : ∀ (t : List ScopeRule) (c : ScopeRule),
    List.Chain' gapRel (c :: t) → sweepRanges c t = c :: t
  | [], _, _ => rfl
  | r :: rs, c, h => by
    have hg : gapRel c r := (List.chain'_cons.mp h).1
    have hnle : ¬(r.lo ≤ c.hi + 1) := by
      unfold gapRel at hg
      omega
    rw [sweepRanges, if_neg hnle,
      sweepRanges_of_gapped rs r (List.chain'_cons.mp h).2]

lemma mergeGroup_fixed {g : List ScopeRule} (hlh : ∀ x ∈ g, x.lo ≤ x.hi)
    (hpw : List.Pairwise gapRel g) : mergeGroup g = g := by
  have hsorted : List.Sorted leRule g := by
    refine List.Pairwise.imp_of_mem ?_ hpw
    intro a b ha _ hab
    have h1 := hlh a ha
    unfold gapRel at hab
    exact Or.inl (by omega)
  unfold mergeGroup
  rw [hsorted.insertionSort_eq]
  cases g with
  | nil => rfl
  | cons c t =>
    show sweepRanges c t = c :: t
    exact sweepRanges_of_gapped t c (List.Pairwise.chain' hpw)

/-- C7: the merge operation is idempotent.  On the code this holds not just
up to reordering (the claim's set comparison) but as literal list
equality. -/
theorem c7_merge_idempotent (R : List ScopeRule) :
    mergeScopeRules (mergeScopeRules R) = mergeScopeRules R := by
  obtain ⟨hmem, _⟩ := mergeScopeRules_props R
  have hgrp : ∀ p ∈ firstKeys (R.filterMap normScopeEntry),
      (∀ x ∈ mergeGroup ((R.filterMap normScopeEntry).filter
        fun r => r.pfx == p), x.pfx = p ∧ x.lo ≤ x.hi) ∧
      List.Pairwise gapRel (mergeGroup ((R.filterMap normScopeEntry).filter
        fun r => r.pfx == p)) ∧
      mergeGroup ((R.filterMap normScopeEntry).filter
        fun r => r.pfx == p) ≠ [] := by
    intro p hp
    have h := mergeGroup_props p
      ((R.filterMap normScopeEntry).filter fun r => r.pfx == p)
      (fun x hx => eq_of_beq (List.mem_filter.mp hx).2)
      (fun x hx => (mem_pre_props (List.mem_filter.mp hx).1).2.1)
    refine ⟨h.1, h.2.1, h.2.2 ?_⟩
    obtain ⟨r0, hr0, hr0p⟩ := mem_firstKeys.mp hp
    exact List.ne_nil_of_mem (List.mem_filter.mpr ⟨hr0, by simp [hr0p]⟩)
  have hfix : ∀ x ∈ mergeScopeRules R, normScopeEntry x = some x := by
    intro x hx
    obtain ⟨hlh, hne, r, hr, he⟩ := hmem x hx
    refine normScopeEntry_fixed ?_ hne hlh
    rw [he]
    exact normalizeScopePfx_idem _
  have hpre2 : (mergeScopeRules R).filterMap normScopeEntry = mergeScopeRules R :=
    filterMap_norm_eq_self hfix
  have hK : firstKeys (mergeScopeRules R) =
      firstKeys (R.filterMap normScopeEntry) := by
    rw [mergeScopeRules_eq R]
    exact firstKeys_flatten_blocks _ _
      (firstKeys_nodup _)
      (fun p hp => (hgrp p hp).2.2)
      (fun p hp x hx => ((hgrp p hp).1 x hx).1)
  have hfilter : ∀ p ∈ firstKeys (R.filterMap normScopeEntry),
      (mergeScopeRules R).filter (fun r => r.pfx == p) =
      mergeGroup ((R.filterMap normScopeEntry).filter fun r => r.pfx == p) := by
    intro p hp
    rw [mergeScopeRules_eq R]
    exact filter_flatten_blocks _ _ (firstKeys_nodup _) hp
      (fun q hq x hx => ((hgrp q hq).1 x hx).1)
  have hmg : ∀ p ∈ firstKeys (R.filterMap normScopeEntry),
      mergeGroup ((mergeScopeRules R).filter fun r => r.pfx == p) =
      mergeGroup ((R.filterMap normScopeEntry).filter fun r => r.pfx == p) := by
    intro p hp
    rw [hfilter p hp]
    exact mergeGroup_fixed (fun x hx => ((hgrp p hp).1 x hx).2) (hgrp p hp).2.1
  calc mergeScopeRules (mergeScopeRules R)
    _ = ((firstKeys (R.filterMap normScopeEntry)).map fun p =>
          mergeGroup ((mergeScopeRules R).filter
            fun r => r.pfx == p)).flatten := by
        rw [mergeScopeRules_eq (mergeScopeRules R), hpre2, hK]
    _ = ((firstKeys (R.filterMap normScopeEntry)).map fun p =>
          mergeGroup ((R.filterMap normScopeEntry).filter
            fun r => r.pfx == p)).flatten := by
        congr 1
        exact List.map_congr_left hmg
    _ = mergeScopeRules R := (mergeScopeRules_eq R).symm
